import Mathlib

/-!
Verification of the CodeChain consensus core (Tendermint message codec,
consensus state types, seal view, proposal store, and the Solo engine)
against its specification.

The Rust sources embedded here are:
  * `core/src/consensus/tendermint/message.rs`
  * `core/src/consensus/tendermint/types.rs`
  * `core/src/consensus/solo/mod.rs`

Machine integers (`u64`, `u8`, `usize`) are modelled as `Nat`; all the
operations verified here only compare, add or subtract them, and the
claims under study do not concern wrap-around behaviour (where an
overflow or underflow could occur it is treated explicitly).  Hashes
(`H256`) and Schnorr signatures (`H512`) are modelled as `Nat` values
standing for their fixed-width byte strings.

The RLP layer (`util/rlp` in the repository, used through `RlpStream` /
`UntrustedRlp`) is modelled at the structured-item level: an `RlpItem`
is either a byte string or a list of items, which is exactly the value
tree that `rlp_append` builds and `decode` consumes.  The byte-level
length-prefixed serialisation of that tree is the RLP library's and is
injective, so round-trip properties at the item level are the faithful
statement of the source's encode/decode pairs.
-/

namespace CodeChain

/-! ## Core scalar types (`types.rs`) -/

/-
`pub type Height = u64;` and `pub type View = u64;` are modelled as `Nat`.
`BlockHash` (an `H256` digest) and `SchnorrSignature` (an `H512`) are
modelled as the `Nat` their fixed-width byte strings denote.  We write
`Nat` directly in signatures (a type alias would hide the arithmetic
structure from `omega`).
-/

/-- `enum Step { Propose, Prevote, Precommit, Commit }` from `types.rs`. -/
inductive Step where
  | Propose
  | Prevote
  | Precommit
  | Commit
deriving DecidableEq, Repr

/-- `Step::number` from `types.rs` lines 249-256. -/
def Step.number : Step → Nat
  | .Propose => 0
  | .Prevote => 1
  | .Precommit => 2
  | .Commit => 3

/-- `struct VoteStep { height, view, step }` from `message.rs`. -/
structure VoteStep where
  height : Nat
  view : Nat
  step : Step
deriving DecidableEq, Repr

/-- `Ord for VoteStep` (`message.rs` lines 65-75): compare heights, then
views, then `Step::number`. -/
def VoteStep.cmp (a m : VoteStep) : Ordering :=
  if a.height ≠ m.height then compare a.height m.height
  else if a.view ≠ m.view then compare a.view m.view
  else compare a.step.number m.step.number

/-- Rust's `a < b`, i.e. `a.cmp(&b) == Ordering::Less`. -/
def VoteStep.lt (a b : VoteStep) : Prop := VoteStep.cmp a b = .lt

instance : Decidable (VoteStep.lt a b) := by unfold VoteStep.lt; infer_instance

/-- The lexicographic strict order on the triple
`(height, view, step.number)`, written out. -/
def VoteStep.lexLt (a b : VoteStep) : Prop :=
  a.height < b.height ∨
    (a.height = b.height ∧
      (a.view < b.view ∨ (a.view = b.view ∧ a.step.number < b.step.number)))

theorem Step.number_inj : ∀ s t : Step, s.number = t.number ↔ s = t := by
  intro s t
  cases s <;> cases t <;> decide

theorem Step.number_trichotomy :
    ∀ s t : Step, s.number < t.number ∨ s = t ∨ t.number < s.number := by
  intro s t
  cases s <;> cases t <;> decide

theorem VoteStep.cmp_eq_lt_iff (a b : VoteStep) :
    VoteStep.cmp a b = .lt ↔ VoteStep.lexLt a b := by
  unfold VoteStep.cmp VoteStep.lexLt
  by_cases h1 : a.height = b.height <;> by_cases h2 : a.view = b.view <;>
    simp [h1, h2, Nat.compare_eq_lt]

theorem VoteStep.cmp_eq_eq_iff (a b : VoteStep) :
    VoteStep.cmp a b = .eq ↔ a = b := by
  obtain ⟨h, v, s⟩ := a
  obtain ⟨h', v', s'⟩ := b
  unfold VoteStep.cmp
  by_cases h1 : h = h' <;> by_cases h2 : v = v' <;>
    simp [h1, h2, Nat.compare_eq_eq, VoteStep.mk.injEq, ← Step.number_inj]

/-- **C1.** The ordering on `VoteStep` is exactly the lexicographic order on
`(height, view, step.number)` (with Propose, Prevote, Precommit, Commit
numbered 0, 1, 2, 3), and it is a strict total order: irreflexive,
transitive, and total (trichotomous). -/
theorem voteStep_ord_lex_strict_total :
    (∀ a b : VoteStep, VoteStep.lt a b ↔ VoteStep.lexLt a b) ∧
    (∀ a : VoteStep, ¬ VoteStep.lt a a) ∧
    (∀ a b c : VoteStep, VoteStep.lt a b → VoteStep.lt b c → VoteStep.lt a c) ∧
    (∀ a b : VoteStep, VoteStep.lt a b ∨ a = b ∨ VoteStep.lt b a) := by
  have hiff : ∀ a b : VoteStep, VoteStep.lt a b ↔ VoteStep.lexLt a b :=
    fun a b => VoteStep.cmp_eq_lt_iff a b
  refine ⟨hiff, ?_, ?_, ?_⟩
  · intro a h
    have := (hiff a a).mp h
    unfold VoteStep.lexLt at this
    omega
  · intro a b c hab hbc
    have h1 := (hiff a b).mp hab
    have h2 := (hiff b c).mp hbc
    refine (hiff a c).mpr ?_
    unfold VoteStep.lexLt at *
    omega
  · intro a b
    rcases Nat.lt_trichotomy a.height b.height with hh | hh | hh
    · exact Or.inl ((hiff a b).mpr (Or.inl hh))
    · rcases Nat.lt_trichotomy a.view b.view with hv | hv | hv
      · exact Or.inl ((hiff a b).mpr (Or.inr ⟨hh, Or.inl hv⟩))
      · rcases Step.number_trichotomy a.step b.step with hs | hs | hs
        · exact Or.inl ((hiff a b).mpr (Or.inr ⟨hh, Or.inr ⟨hv, hs⟩⟩))
        · refine Or.inr (Or.inl ?_)
          obtain ⟨ah, av, as⟩ := a
          obtain ⟨bh, bv, bs⟩ := b
          simp_all
        · exact Or.inr (Or.inr ((hiff b a).mpr
            (Or.inr ⟨hh.symm, Or.inr ⟨hv.symm, hs⟩⟩)))
      · exact Or.inr (Or.inr ((hiff b a).mpr (Or.inr ⟨hh.symm, Or.inl hv⟩)))
    · exact Or.inr (Or.inr ((hiff b a).mpr (Or.inl hh)))

/-- Witness for C1: the transitivity clause applied at concrete vote steps,
reproducing the source's own `step_ordering` test values. -/
theorem voteStep_ord_lex_strict_total_witness :
    VoteStep.lt ⟨10, 123, .Propose⟩ ⟨11, 200, .Precommit⟩ :=
  voteStep_ord_lex_strict_total.2.2.1
    ⟨10, 123, .Propose⟩ ⟨10, 123, .Precommit⟩ ⟨11, 200, .Precommit⟩
    (by decide) (by decide)

/-! ## RLP layer

The repository's `util/rlp` crate (outside `src/`) is modelled from the
spec at the structured-item level: a value is a byte string or a list of
values; integers are minimal big-endian byte strings (no leading zero
bytes; zero is the empty byte string); `Optional(T)` is the empty byte
string when absent, or `T` when present. -/

/-- An RLP value tree: what `RlpStream` builds and `UntrustedRlp` reads. -/
inductive RlpItem where
  | str (bytes : List Nat)
  | list (items : List RlpItem)

/-- The decoder-error cases of the rlp crate used by the embedded sources. -/
inductive DecoderError where
  | RlpIncorrectListLen (got expected : Nat)
  | Custom (msg : String)
  | RlpExpectedToBeList
  | RlpExpectedToBeData
  | RlpIsTooShort
  | RlpIsTooBig
  | RlpInvalidIndirection
deriving DecidableEq, Repr

instance [DecidableEq ε] [DecidableEq α] : DecidableEq (Except ε α) := fun x y =>
  match x, y with
  | .ok a, .ok b =>
    if h : a = b then .isTrue (by rw [h]) else .isFalse (by simp [h])
  | .error e, .error e' =>
    if h : e = e' then .isTrue (by rw [h]) else .isFalse (by simp [h])
  | .ok _, .error _ => .isFalse (by simp)
  | .error _, .ok _ => .isFalse (by simp)

/-- Minimal big-endian byte string of `n` (the RLP integer encoding).
The first argument is structural fuel, always called with `fuel ≥ n`. -/
def natToBeBytesAux : Nat → Nat → List Nat
  | _, 0 => []
  | 0, _ + 1 => []
  | fuel + 1, n + 1 => natToBeBytesAux fuel ((n + 1) / 256) ++ [(n + 1) % 256]

/-- Modelled from the spec: integers are encoded as minimal big-endian
byte strings; zero is the empty byte string (`util/rlp`, outside `src/`). -/
def natToBeBytes (n : Nat) : List Nat := natToBeBytesAux n n

/-- Read a big-endian byte string back as a number. -/
def beBytesToNat (bs : List Nat) : Nat := bs.foldl (fun acc b => acc * 256 + b) 0

/-- Big-endian byte string of `n` with exactly `w` bytes (the RLP encoding
of fixed-width hashes such as `H256` and `H512`). -/
def natToFixedBytes : Nat → Nat → List Nat
  | 0, _ => []
  | w + 1, n => natToFixedBytes w (n / 256) ++ [n % 256]

/-- Modelled from the spec: the RLP integer decoder accepts at most
`maxBytes` bytes (else `RlpIsTooBig`) and rejects a leading zero byte,
i.e. a non-minimal encoding (`util/rlp`, outside `src/`). -/
def decodeUInt (maxBytes : Nat) (bs : List Nat) : Except DecoderError Nat :=
  if maxBytes < bs.length then .error .RlpIsTooBig
  else
    match bs with
    | [] => .ok 0
    | b :: _ => if b = 0 then .error .RlpInvalidIndirection else .ok (beBytesToNat bs)

theorem beBytesToNat_append_one (xs : List Nat) (b : Nat) :
    beBytesToNat (xs ++ [b]) = beBytesToNat xs * 256 + b := by
  simp [beBytesToNat, List.foldl_append]

theorem natToBeBytesAux_fuel_irrel :
    ∀ n f1 f2, n ≤ f1 → n ≤ f2 → natToBeBytesAux f1 n = natToBeBytesAux f2 n := by
  intro n
  induction n using Nat.strong_induction_on with
  | _ n ih =>
    intro f1 f2 h1 h2
    match n, f1, f2 with
    | 0, f1, f2 => simp [natToBeBytesAux]
    | m + 1, g1 + 1, g2 + 1 =>
      have hdiv : (m + 1) / 256 < m + 1 := Nat.div_lt_self (Nat.succ_pos m) (by omega)
      have hg1 : (m + 1) / 256 ≤ g1 := by omega
      have hg2 : (m + 1) / 256 ≤ g2 := by omega
      simp only [natToBeBytesAux]
      rw [ih ((m + 1) / 256) hdiv g1 g2 hg1 hg2]

theorem natToBeBytes_eq_rec (n : Nat) (h : n ≠ 0) :
    natToBeBytes n = natToBeBytes (n / 256) ++ [n % 256] := by
  obtain ⟨m, rfl⟩ : ∃ m, n = m + 1 := ⟨n - 1, by omega⟩
  show natToBeBytesAux (m + 1) (m + 1) = _
  have hdiv : (m + 1) / 256 < m + 1 := Nat.div_lt_self (Nat.succ_pos m) (by omega)
  simp only [natToBeBytesAux, natToBeBytes]
  rw [natToBeBytesAux_fuel_irrel ((m + 1) / 256) m ((m + 1) / 256) (by omega) (le_refl _)]

theorem beBytesToNat_natToBeBytes (n : Nat) : beBytesToNat (natToBeBytes n) = n := by
  induction n using Nat.strong_induction_on with
  | _ n ih =>
    by_cases h : n = 0
    · subst h; rfl
    · rw [natToBeBytes_eq_rec n h, beBytesToNat_append_one,
        ih (n / 256) (Nat.div_lt_self (Nat.pos_of_ne_zero h) (by omega))]
      omega

theorem natToBeBytes_ne_nil (n : Nat) (h : n ≠ 0) : natToBeBytes n ≠ [] := by
  rw [natToBeBytes_eq_rec n h]
  simp

theorem natToBeBytes_head_ne_zero (n : Nat) :
    ∀ b bs, natToBeBytes n = b :: bs → b ≠ 0 := by
  induction n using Nat.strong_induction_on with
  | _ n ih =>
    intro b bs heq
    by_cases h : n = 0
    · subst h; simp [natToBeBytes, natToBeBytesAux] at heq
    · rw [natToBeBytes_eq_rec n h] at heq
      by_cases hq : n / 256 = 0
      · rw [hq] at heq
        simp only [natToBeBytes, natToBeBytesAux, List.nil_append] at heq
        have hlt : n < 256 := by
          rcases Nat.lt_or_ge n 256 with hl | hl
          · exact hl
          · exact absurd (Nat.one_le_div_iff (by omega) |>.mpr hl) (by omega)
        have : n % 256 = n := Nat.mod_eq_of_lt hlt
        cases heq
        omega
      · obtain ⟨b', bs', hcons⟩ : ∃ b' bs', natToBeBytes (n / 256) = b' :: bs' := by
          cases hx : natToBeBytes (n / 256) with
          | nil => exact absurd hx (natToBeBytes_ne_nil _ hq)
          | cons y ys => exact ⟨y, ys, rfl⟩
        rw [hcons] at heq
        cases heq
        exact ih (n / 256) (Nat.div_lt_self (Nat.pos_of_ne_zero h) (by omega)) b bs' hcons

theorem natToBeBytes_length_le (n k : Nat) (h : n < 256 ^ k) :
    (natToBeBytes n).length ≤ k := by
  induction k generalizing n with
  | zero =>
    have : n = 0 := by simpa using h
    subst this
    simp [natToBeBytes, natToBeBytesAux]
  | succ k ihk =>
    by_cases h0 : n = 0
    · subst h0; simp [natToBeBytes, natToBeBytesAux]
    · rw [natToBeBytes_eq_rec n h0]
      have hdivlt : n / 256 < 256 ^ k := by
        rw [Nat.div_lt_iff_lt_mul (by omega)]
        calc n < 256 ^ (k + 1) := h
        _ = 256 ^ k * 256 := by ring
      have := ihk (n / 256) hdivlt
      simp only [List.length_append, List.length_cons, List.length_nil]
      omega

theorem decodeUInt_natToBeBytes (maxBytes n : Nat) (h : n < 256 ^ maxBytes) :
    decodeUInt maxBytes (natToBeBytes n) = .ok n := by
  unfold decodeUInt
  have hlen : ¬ maxBytes < (natToBeBytes n).length := by
    have := natToBeBytes_length_le n maxBytes h
    omega
  rw [if_neg hlen]
  cases hx : natToBeBytes n with
  | nil =>
    have : n = 0 := by
      have := beBytesToNat_natToBeBytes n
      rw [hx] at this
      simpa [beBytesToNat] using this.symm
    simp [this]
  | cons b bs =>
    have hb : b ≠ 0 := natToBeBytes_head_ne_zero n b bs hx
    have hval := beBytesToNat_natToBeBytes n
    rw [hx] at hval
    simp [hb, hval]

theorem natToFixedBytes_length (w n : Nat) : (natToFixedBytes w n).length = w := by
  induction w generalizing n with
  | zero => rfl
  | succ w ihw => simp [natToFixedBytes, ihw]

theorem beBytesToNat_natToFixedBytes (w n : Nat) (h : n < 256 ^ w) :
    beBytesToNat (natToFixedBytes w n) = n := by
  induction w generalizing n with
  | zero =>
    have : n = 0 := by simpa using h
    subst this
    rfl
  | succ w ihw =>
    have hdivlt : n / 256 < 256 ^ w := by
      rw [Nat.div_lt_iff_lt_mul (by omega)]
      calc n < 256 ^ (w + 1) := h
      _ = 256 ^ w * 256 := by ring
    simp only [natToFixedBytes, beBytesToNat_append_one, ihw (n / 256) hdivlt]
    omega

/-! ## `UntrustedRlp` accessors and leaf codecs -/

/-- `UntrustedRlp::item_count()`. -/
def RlpItem.itemCount : RlpItem → Except DecoderError Nat
  | .str _ => .error .RlpExpectedToBeList
  | .list l => .ok l.length

/-- `UntrustedRlp::at(i)`. -/
def RlpItem.atIdx : RlpItem → Nat → Except DecoderError RlpItem
  | .str _, _ => .error .RlpExpectedToBeList
  | .list l, i =>
    match l.get? i with
    | some x => .ok x
    | none => .error .RlpIsTooShort

/-- `as_val::<Vec<u8>>()`: the raw byte string of a data item. -/
def decBytes : RlpItem → Except DecoderError (List Nat)
  | .str bs => .ok bs
  | .list _ => .error .RlpExpectedToBeData

/-- `as_val::<u8>()`. -/
def decU8 : RlpItem → Except DecoderError Nat
  | .str bs => decodeUInt 1 bs
  | .list _ => .error .RlpExpectedToBeData

/-- `as_val::<u64>()` (also `usize` on a 64-bit target). -/
def decU64 : RlpItem → Except DecoderError Nat
  | .str bs => decodeUInt 8 bs
  | .list _ => .error .RlpExpectedToBeData

/-- `append` of an unsigned integer: its minimal big-endian byte string. -/
def encUInt (n : Nat) : RlpItem := .str (natToBeBytes n)

/-- `append` of a fixed-width hash (`H256` has `w = 32`, `H512` has `w = 64`):
its raw `w`-byte string. -/
def encFixed (w n : Nat) : RlpItem := .str (natToFixedBytes w n)

/-- `as_val` of a fixed-width hash: exactly `w` bytes, else an error. -/
def decFixed (w : Nat) : RlpItem → Except DecoderError Nat
  | .str bs => if bs.length = w then .ok (beBytesToNat bs) else .error .RlpIsTooShort
  | .list _ => .error .RlpExpectedToBeData

/-- Modelled from the spec: `bool` is RLP-encoded as the integer 0 or 1
(`util/rlp`, outside `src/`; integers are minimal big-endian strings). -/
def encBool (b : Bool) : RlpItem := .str (if b then [1] else [])

/-- Modelled from the spec: `bool` decoding, inverse of `encBool`. -/
def decBool : RlpItem → Except DecoderError Bool
  | .str [] => .ok false
  | .str [1] => .ok true
  | _ => .error .RlpInvalidIndirection

/-- Modelled from the spec: `Optional(T)` is encoded as the empty byte
string when absent, or as `T` when present (`util/rlp`, outside `src/`). -/
def encOption (f : α → RlpItem) : Option α → RlpItem
  | none => .str []
  | some v => f v

/-- Modelled from the spec: `Optional(T)` decoding — the empty byte string
is `None`, anything else decodes as `T`. -/
def decOption (f : RlpItem → Except DecoderError α) (it : RlpItem) :
    Except DecoderError (Option α) :=
  match it with
  | .str [] => .ok none
  | _ => (f it).map some

/-- Decode every element of a list, propagating the first error
(the effect of `Iterator::collect::<Result<_, _>>`). -/
def mapExcept (f : α → Except ε β) : List α → Except ε (List β)
  | [] => .ok []
  | x :: xs => do
    let y ← f x
    let ys ← mapExcept f xs
    pure (y :: ys)

/-- `UntrustedRlp::list_at(i)` body: a list item whose elements each decode
as byte strings. -/
def decBytesList : RlpItem → Except DecoderError (List (List Nat))
  | .str _ => .error .RlpExpectedToBeList
  | .list l => mapExcept decBytes l

/-- `Encodable for Step` (`types.rs` lines 272-276): appends `number()` as
a single integer value. -/
def Step.rlp_append (s : Step) : RlpItem := encUInt s.number

/-- `Decodable for Step` (`types.rs` lines 259-270). -/
def Step.decode (rlp : RlpItem) : Except DecoderError Step := do
  match (← decU8 rlp) with
  | 0 => pure .Propose
  | 1 => pure .Prevote
  | 2 => pure .Precommit
  | 3 => pure .Commit
  | _ => throw (.Custom ("Invalid step."))

/-- Derived `RlpEncodable for VoteStep`: the list of its three fields. -/
def VoteStep.rlp_append (vs : VoteStep) : RlpItem :=
  .list [encUInt vs.height, encUInt vs.view, vs.step.rlp_append]

/-- Derived `RlpDecodable for VoteStep`: `val_at` each of the three slots. -/
def VoteStep.decode (rlp : RlpItem) : Except DecoderError VoteStep := do
  let height ← decU64 (← rlp.atIdx 0)
  let view ← decU64 (← rlp.atIdx 1)
  let step ← Step.decode (← rlp.atIdx 2)
  pure ⟨height, view, step⟩

/-- Modelled from the spec: `BitSet` is a fixed-capacity bitmap over
validator indices, kept as its backing byte array (the `BitSet` type lives
outside `src/`). -/
structure BitSet where
  bytes : List Nat
deriving DecidableEq, Repr

/-- `BitSet` RLP encoding: its backing byte string. -/
def BitSet.rlp_append (b : BitSet) : RlpItem := .str b.bytes

/-- `BitSet` RLP decoding: inverse of `BitSet.rlp_append`. -/
def BitSet.decode : RlpItem → Except DecoderError BitSet
  | .str bs => .ok ⟨bs⟩
  | .list _ => .error .RlpExpectedToBeData

/-- Bit `i` of the bitmap: bit `i % 8` of byte `i / 8`. -/
def BitSet.testIdx (b : BitSet) (i : Nat) : Bool :=
  Nat.testBit (b.bytes.getD (i / 8) 0) (i % 8)

/-- `BitSet::true_index_iter()`: the indices of set bits, ascending. -/
def BitSet.trueIndexIter (b : BitSet) : List Nat :=
  (List.range (8 * b.bytes.length)).filter (fun i => b.testIdx i)

/-- `BitSet::count()`: the number of set bits. -/
def BitSet.count (b : BitSet) : Nat := b.trueIndexIter.length

/-! ## `TendermintMessage` (`message.rs`) -/

/-- `enum TendermintMessage` (`message.rs` lines 84-105). -/
inductive TendermintMessage where
  | ConsensusMessage (messages : List (List Nat))
  | ProposalBlock (signature : Nat) (view : Nat) (message : List Nat)
  | StepState (vote_step : VoteStep) (proposal : Option Nat)
      (lock_view : Option Nat) (known_votes : BitSet)
  | RequestMessage (vote_step : VoteStep) (requested_votes : BitSet)
  | RequestProposal (height : Nat) (view : Nat)
deriving DecidableEq, Repr

/-- `Encodable for TendermintMessage` (`message.rs` lines 107-165).
`snappyCompress` stands for `snap::Encoder::compress_vec`, an external
crate (the source unwraps it with an `expect`). -/
def TendermintMessage.rlp_append (snappyCompress : List Nat → List Nat) :
    TendermintMessage → RlpItem
  | .ConsensusMessage messages =>
      .list [encUInt 1, .list (messages.map RlpItem.str)]
  | .ProposalBlock signature view message =>
      .list [encUInt 2, encFixed 64 signature, encUInt view,
        .str (snappyCompress message)]
  | .StepState vote_step proposal lock_view known_votes =>
      .list [encUInt 3, vote_step.rlp_append, encOption (encFixed 32) proposal,
        encOption encUInt lock_view, known_votes.rlp_append]
  | .RequestMessage vote_step requested_votes =>
      .list [encUInt 4, vote_step.rlp_append, requested_votes.rlp_append]
  | .RequestProposal height view =>
      .list [encUInt 5, encUInt height, encUInt view]

/-- `Decodable for TendermintMessage` (`message.rs` lines 167-259).
`snappyDecompress` stands for `snap::Decoder::decompress_vec`, an external
crate whose failure the source maps to `Custom("Invalid compression
format")`. -/
def TendermintMessage.decode (snappyDecompress : List Nat → Option (List Nat))
    (rlp : RlpItem) : Except DecoderError TendermintMessage := do
  let id ← decU8 (← rlp.atIdx 0)
  if id = 1 then do
    let item_count ← rlp.itemCount
    if item_count ≠ 2 then
      throw (.RlpIncorrectListLen item_count 2)
    else do
      pure (TendermintMessage.ConsensusMessage (← decBytesList (← rlp.atIdx 1)))
  else if id = 2 then do
    let item_count ← rlp.itemCount
    if item_count ≠ 4 then
      throw (.RlpIncorrectListLen item_count 4)
    else do
      let signature ← rlp.atIdx 1
      let view ← rlp.atIdx 2
      let compressed_message ← decBytes (← rlp.atIdx 3)
      match snappyDecompress compressed_message with
      | none => throw (.Custom ("Invalid compression format"))
      | some uncompressed_message => do
        pure (TendermintMessage.ProposalBlock (← decFixed 64 signature)
          (← decU64 view) uncompressed_message)
  else if id = 3 then do
    let item_count ← rlp.itemCount
    if item_count ≠ 5 then
      throw (.RlpIncorrectListLen item_count 5)
    else do
      let vote_step ← VoteStep.decode (← rlp.atIdx 1)
      let proposal ← decOption (decFixed 32) (← rlp.atIdx 2)
      let lock_view ← decOption decU64 (← rlp.atIdx 3)
      let known_votes ← BitSet.decode (← rlp.atIdx 4)
      pure (TendermintMessage.StepState vote_step proposal lock_view known_votes)
  else if id = 4 then do
    let item_count ← rlp.itemCount
    if item_count ≠ 3 then
      throw (.RlpIncorrectListLen item_count 3)
    else do
      let vote_step ← VoteStep.decode (← rlp.atIdx 1)
      let requested_votes ← BitSet.decode (← rlp.atIdx 2)
      pure (TendermintMessage.RequestMessage vote_step requested_votes)
  else if id = 5 then do
    let item_count ← rlp.itemCount
    if item_count ≠ 3 then
      throw (.RlpIncorrectListLen item_count 3)
    else do
      let height ← decU64 (← rlp.atIdx 1)
      let view ← decU64 (← rlp.atIdx 2)
      pure (TendermintMessage.RequestProposal height view)
  else throw (.Custom ("Unknown message id detected"))

/-! ## `ProposalInfo` and `Proposal` (`types.rs`) -/

/-- Modelled from the spec: `PriorityMessage` is a VRF-derived scalar
ranking candidate proposers (the sortition module lives outside `src/`);
only its `priority()` scalar matters to the embedded code, and its RLP
encoding is that scalar's. -/
structure PriorityMessage where
  priority : Nat
deriving DecidableEq, Repr

/-- RLP encoding of a `PriorityMessage` (see its doc comment). -/
def PriorityMessage.rlp_append (p : PriorityMessage) : RlpItem :=
  encUInt p.priority

/-- RLP decoding of a `PriorityMessage`, inverse of its encoding. -/
def PriorityMessage.decode (rlp : RlpItem) : Except DecoderError PriorityMessage := do
  pure ⟨← decU64 rlp⟩

/-- `struct ProposalInfo` (`types.rs` lines 389-396). -/
structure ProposalInfo where
  block_hash : Nat
  priority_message : PriorityMessage
  block : List Nat
  signature : Nat
  is_imported : Bool
deriving DecidableEq, Repr

/-- Derived `RlpEncodable for ProposalInfo`: the list of its five fields. -/
def ProposalInfo.rlp_append (p : ProposalInfo) : RlpItem :=
  .list [encFixed 32 p.block_hash, p.priority_message.rlp_append,
    .str p.block, encFixed 64 p.signature, encBool p.is_imported]

/-- Derived `RlpDecodable for ProposalInfo`: `val_at` each slot in order. -/
def ProposalInfo.decode (rlp : RlpItem) : Except DecoderError ProposalInfo := do
  let block_hash ← decFixed 32 (← rlp.atIdx 0)
  let priority_message ← PriorityMessage.decode (← rlp.atIdx 1)
  let block ← decBytes (← rlp.atIdx 2)
  let signature ← decFixed 64 (← rlp.atIdx 3)
  let is_imported ← decBool (← rlp.atIdx 4)
  pure ⟨block_hash, priority_message, block, signature, is_imported⟩

/-- `Encodable for Proposal` (`types.rs` lines 430-434): `append_list` of
the stored `ProposalInfo`s (the `Proposal` newtype wraps the `Vec`). -/
def Proposal.rlp_append_list (p : List ProposalInfo) : RlpItem :=
  .list (p.map ProposalInfo.rlp_append)

/-- `Decodable for Proposal` (`types.rs` lines 436-440): `as_list`. -/
def Proposal.decode : RlpItem → Except DecoderError (List ProposalInfo)
  | .str _ => .error .RlpExpectedToBeList
  | .list l => mapExcept ProposalInfo.decode l

/-! ## Round-trip lemmas for the leaf codecs -/

theorem exceptBind_ok (a : α) (f : α → Except ε β) :
    (Except.ok a >>= f) = f a := rfl

theorem atIdx_cons_zero (x : RlpItem) (l : List RlpItem) :
    RlpItem.atIdx (.list (x :: l)) 0 = .ok x := rfl

theorem atIdx_one (a b : RlpItem) (l : List RlpItem) :
    RlpItem.atIdx (.list (a :: b :: l)) 1 = .ok b := rfl

theorem atIdx_two (a b c : RlpItem) (l : List RlpItem) :
    RlpItem.atIdx (.list (a :: b :: c :: l)) 2 = .ok c := rfl

theorem atIdx_three (a b c d : RlpItem) (l : List RlpItem) :
    RlpItem.atIdx (.list (a :: b :: c :: d :: l)) 3 = .ok d := rfl

theorem atIdx_four (a b c d e : RlpItem) (l : List RlpItem) :
    RlpItem.atIdx (.list (a :: b :: c :: d :: e :: l)) 4 = .ok e := rfl

theorem itemCount_list (l : List RlpItem) :
    RlpItem.itemCount (.list l) = .ok l.length := rfl

theorem exceptMap_ok (a : α) (f : α → β) :
    (Except.ok a : Except ε α).map f = .ok (f a) := rfl

theorem decU8_encUInt (n : Nat) (h : n < 256) : decU8 (encUInt n) = .ok n := by
  have h' : n < 256 ^ 1 := by simpa using h
  simp [decU8, encUInt, decodeUInt_natToBeBytes 1 n h']

theorem decU64_encUInt (n : Nat) (h : n < 2 ^ 64) : decU64 (encUInt n) = .ok n := by
  have h' : n < 256 ^ 8 := by norm_num; omega
  simp [decU64, encUInt, decodeUInt_natToBeBytes 8 n h']

theorem decFixed_encFixed (w n : Nat) (h : n < 256 ^ w) :
    decFixed w (encFixed w n) = .ok n := by
  simp [decFixed, encFixed, natToFixedBytes_length, beBytesToNat_natToFixedBytes w n h]

theorem decBool_encBool (b : Bool) : decBool (encBool b) = .ok b := by
  cases b <;> rfl

theorem step_decode_roundTrip (s : Step) : Step.decode s.rlp_append = .ok s := by
  cases s <;> rfl

theorem voteStep_decode_roundTrip (vs : VoteStep)
    (hh : vs.height < 2 ^ 64) (hv : vs.view < 2 ^ 64) :
    VoteStep.decode vs.rlp_append = .ok vs := by
  simp [VoteStep.decode, VoteStep.rlp_append, RlpItem.atIdx, exceptBind_ok,
    decU64_encUInt _ hh, decU64_encUInt _ hv, step_decode_roundTrip]

theorem bitSet_decode_roundTrip (b : BitSet) : BitSet.decode b.rlp_append = .ok b := rfl

theorem mapExcept_decBytes (l : List (List Nat)) :
    mapExcept decBytes (l.map RlpItem.str) = .ok l := by
  induction l with
  | nil => rfl
  | cons x xs ih => simp [mapExcept, decBytes, ih, exceptBind_ok]

theorem decOption_encOption_u64 (lv : Option Nat)
    (hb : ∀ v ∈ lv, v < 2 ^ 64) (h0 : lv ≠ some 0) :
    decOption decU64 (encOption encUInt lv) = .ok lv := by
  cases lv with
  | none => rfl
  | some v =>
    have hv0 : v ≠ 0 := fun h => h0 (by rw [h])
    have hdec : decU64 (encUInt v) = .ok v := decU64_encUInt v (hb v rfl)
    cases hx : natToBeBytes v with
    | nil => exact absurd hx (natToBeBytes_ne_nil v hv0)
    | cons b bs =>
      rw [encUInt, hx] at hdec
      simp [decOption, encOption, encUInt, hx, hdec, exceptMap_ok]

theorem decOption_encOption_h256 (p : Option Nat) (hb : ∀ h ∈ p, h < 2 ^ 256) :
    decOption (decFixed 32) (encOption (encFixed 32) p) = .ok p := by
  cases p with
  | none => rfl
  | some h =>
    have hb' : h < 256 ^ 32 := by
      have := hb h rfl
      norm_num
      omega
    have hdec : decFixed 32 (encFixed 32 h) = .ok h := decFixed_encFixed 32 h hb'
    cases hx : natToFixedBytes 32 h with
    | nil =>
      have := natToFixedBytes_length 32 h
      rw [hx] at this
      simp at this
    | cons b bs =>
      rw [encFixed, hx] at hdec
      simp [decOption, encOption, encFixed, hx, hdec, exceptMap_ok]

/-- The numeric fields of a `TendermintMessage` fit their Rust widths
(`u64` heights and views, `H256` hashes, `H512` signatures). -/
def TendermintMessage.wf : TendermintMessage → Prop
  | .ConsensusMessage _ => True
  | .ProposalBlock signature view _ => signature < 2 ^ 512 ∧ view < 2 ^ 64
  | .StepState vote_step proposal lock_view _ =>
      vote_step.height < 2 ^ 64 ∧ vote_step.view < 2 ^ 64 ∧
        (∀ h ∈ proposal, h < 2 ^ 256) ∧ (∀ v ∈ lock_view, v < 2 ^ 64)
  | .RequestMessage vote_step _ =>
      vote_step.height < 2 ^ 64 ∧ vote_step.view < 2 ^ 64
  | .RequestProposal height view => height < 2 ^ 64 ∧ view < 2 ^ 64

/-- A `StepState` whose `lock_view` is not `Some(0)` (any other variant
passes trivially).  `Some(0)` and `None` share the empty byte string under
the spec's `Optional` scheme, so `Some(0)` cannot round-trip. -/
def TendermintMessage.lockViewRoundTrippable : TendermintMessage → Prop
  | .StepState _ _ lock_view _ => lock_view ≠ some 0
  | _ => True

/-- `ProposalInfo` numeric fields fit their Rust widths. -/
def ProposalInfo.wf (p : ProposalInfo) : Prop :=
  p.block_hash < 2 ^ 256 ∧ p.priority_message.priority < 2 ^ 64 ∧
    p.signature < 2 ^ 512

theorem ProposalInfo.decode_rlp_append (p : ProposalInfo) (hwf : p.wf) :
    ProposalInfo.decode p.rlp_append = .ok p := by
  obtain ⟨hb, hp, hs⟩ := hwf
  have hb' : p.block_hash < 256 ^ 32 := by
    norm_num
    omega
  have hs' : p.signature < 256 ^ 64 := by
    norm_num
    omega
  simp [ProposalInfo.decode, ProposalInfo.rlp_append, RlpItem.atIdx, exceptBind_ok,
    decFixed_encFixed 32 _ hb', decFixed_encFixed 64 _ hs',
    PriorityMessage.decode, PriorityMessage.rlp_append, decU64_encUInt _ hp,
    decBytes, decBool_encBool]

theorem mapExcept_proposalInfo (l : List ProposalInfo) (h : ∀ p ∈ l, p.wf) :
    mapExcept ProposalInfo.decode (l.map ProposalInfo.rlp_append) = .ok l := by
  induction l with
  | nil => rfl
  | cons x xs ih =>
    have hx := ProposalInfo.decode_rlp_append x (h x (by simp))
    have hxs := ih (fun p hp => h p (by simp [hp]))
    simp [mapExcept, hx, hxs, exceptBind_ok]

/-- **C2 (amended).** Decoding inverts encoding for every `TendermintMessage`
whose numeric fields fit their Rust widths, assuming snappy decompression
inverts snappy compression, and PROVIDED a `StepState` does not carry
`lock_view = Some(0)` (under the spec's `Optional` scheme `Some(0)` and
`None` share the empty byte string, so `Some(0)` decodes back as `None`);
likewise `decode(encode(p)) = p` for every `Proposal` / `ProposalInfo`
value with in-width fields. -/
theorem tendermintMessage_proposal_roundTrip :
    (∀ (snappyCompress : List Nat → List Nat)
       (snappyDecompress : List Nat → Option (List Nat)),
       (∀ bs, snappyDecompress (snappyCompress bs) = some bs) →
       ∀ m : TendermintMessage, m.wf → m.lockViewRoundTrippable →
         TendermintMessage.decode snappyDecompress
           (TendermintMessage.rlp_append snappyCompress m) = .ok m) ∧
    (∀ l : List ProposalInfo, (∀ p ∈ l, p.wf) →
       Proposal.decode (Proposal.rlp_append_list l) = .ok l) := by
  constructor
  · intro snappyCompress snappyDecompress hsnappy m hwf hlv
    cases m with
    | ConsensusMessage messages =>
      simp only [TendermintMessage.decode, TendermintMessage.rlp_append,
        atIdx_cons_zero, exceptBind_ok, decU8_encUInt 1 (by norm_num)]
      simp only [Nat.reduceEqDiff, reduceIte]
      simp only [itemCount_list, List.length_cons, List.length_nil, exceptBind_ok]
      simp only [ne_eq, Nat.reduceAdd, Nat.reduceEqDiff, not_true, reduceIte]
      simp only [atIdx_one, exceptBind_ok, decBytesList, mapExcept_decBytes]
      rfl
    | ProposalBlock signature view message =>
      obtain ⟨hs, hv⟩ := hwf
      have hs' : signature < 256 ^ 64 := by
        norm_num
        omega
      simp only [TendermintMessage.decode, TendermintMessage.rlp_append,
        atIdx_cons_zero, exceptBind_ok, decU8_encUInt 2 (by norm_num)]
      simp only [Nat.reduceEqDiff, reduceIte]
      simp only [itemCount_list, List.length_cons, List.length_nil, exceptBind_ok]
      simp only [ne_eq, Nat.reduceAdd, Nat.reduceEqDiff, not_true, reduceIte]
      simp only [atIdx_one, atIdx_two, atIdx_three, exceptBind_ok]
      simp only [decBytes, exceptBind_ok, hsnappy, decFixed_encFixed 64 _ hs',
        decU64_encUInt _ hv]
      rfl
    | StepState vote_step proposal lock_view known_votes =>
      obtain ⟨hh, hv, hp, hl⟩ := hwf
      simp only [TendermintMessage.decode, TendermintMessage.rlp_append,
        atIdx_cons_zero, exceptBind_ok, decU8_encUInt 3 (by norm_num)]
      simp only [Nat.reduceEqDiff, reduceIte]
      simp only [itemCount_list, List.length_cons, List.length_nil, exceptBind_ok]
      simp only [ne_eq, Nat.reduceAdd, Nat.reduceEqDiff, not_true, reduceIte]
      simp only [atIdx_one, atIdx_two, atIdx_three, atIdx_four, exceptBind_ok,
        voteStep_decode_roundTrip vote_step hh hv,
        decOption_encOption_h256 proposal hp,
        decOption_encOption_u64 lock_view hl hlv,
        bitSet_decode_roundTrip]
      rfl
    | RequestMessage vote_step requested_votes =>
      obtain ⟨hh, hv⟩ := hwf
      simp only [TendermintMessage.decode, TendermintMessage.rlp_append,
        atIdx_cons_zero, exceptBind_ok, decU8_encUInt 4 (by norm_num)]
      simp only [Nat.reduceEqDiff, reduceIte]
      simp only [itemCount_list, List.length_cons, List.length_nil, exceptBind_ok]
      simp only [ne_eq, Nat.reduceAdd, Nat.reduceEqDiff, not_true, reduceIte]
      simp only [atIdx_one, atIdx_two, exceptBind_ok,
        voteStep_decode_roundTrip vote_step hh hv, bitSet_decode_roundTrip]
      rfl
    | RequestProposal height view =>
      obtain ⟨hh, hv⟩ := hwf
      simp only [TendermintMessage.decode, TendermintMessage.rlp_append,
        atIdx_cons_zero, exceptBind_ok, decU8_encUInt 5 (by norm_num)]
      simp only [Nat.reduceEqDiff, reduceIte]
      simp only [itemCount_list, List.length_cons, List.length_nil, exceptBind_ok]
      simp only [ne_eq, Nat.reduceAdd, Nat.reduceEqDiff, not_true, reduceIte]
      simp only [atIdx_one, atIdx_two, exceptBind_ok,
        decU64_encUInt _ hh, decU64_encUInt _ hv]
      rfl
  · intro l h
    simp only [Proposal.decode, Proposal.rlp_append_list,
      mapExcept_proposalInfo l h]

/-- Witness for C2 (amended): the round trip evaluated at the source's own
test message `StepState{VoteStep(10,123,Prevote), Some(hash), Some(2),
BitSet.set(2)}` and at a one-entry proposal list. -/
theorem tendermintMessage_proposal_roundTrip_witness :
    TendermintMessage.decode (fun bs => some bs)
      (TendermintMessage.rlp_append (fun bs => bs)
        (.StepState ⟨10, 123, .Prevote⟩ (some 7) (some 2) ⟨[4]⟩)) =
      .ok (.StepState ⟨10, 123, .Prevote⟩ (some 7) (some 2) ⟨[4]⟩) ∧
    Proposal.decode (Proposal.rlp_append_list [⟨5, ⟨9⟩, [16], 3, true⟩]) =
      .ok [⟨5, ⟨9⟩, [16], 3, true⟩] :=
  ⟨tendermintMessage_proposal_roundTrip.1 (fun bs => bs) (fun bs => some bs)
      (fun _ => rfl) (.StepState ⟨10, 123, .Prevote⟩ (some 7) (some 2) ⟨[4]⟩)
      (by norm_num [TendermintMessage.wf])
      (show (some 2 : Option Nat) ≠ some 0 by decide),
    tendermintMessage_proposal_roundTrip.2 [⟨5, ⟨9⟩, [16], 3, true⟩]
      (by norm_num [ProposalInfo.wf])⟩

/-- Counterexample to C2 as stated: the `StepState` message with
`lock_view = Some(0)` does not round-trip — it decodes with
`lock_view = None`, because `Some(0)` and `None` are both encoded as the
empty byte string under the spec's `Optional` and integer encodings. -/
theorem tendermintMessage_roundTrip_counterexample :
    TendermintMessage.decode (fun bs => some bs)
      (TendermintMessage.rlp_append (fun bs => bs)
        (.StepState ⟨0, 0, .Propose⟩ none (some 0) ⟨[]⟩)) ≠
      .ok (.StepState ⟨0, 0, .Propose⟩ none (some 0) ⟨[]⟩) ∧
    TendermintMessage.decode (fun bs => some bs)
      (TendermintMessage.rlp_append (fun bs => bs)
        (.StepState ⟨0, 0, .Propose⟩ none (some 0) ⟨[]⟩)) =
      .ok (.StepState ⟨0, 0, .Propose⟩ none none ⟨[]⟩) := by
  refine ⟨?_, rfl⟩
  intro hcontra
  rw [show TendermintMessage.decode (fun bs => some bs)
      (TendermintMessage.rlp_append (fun bs => bs)
        (.StepState ⟨0, 0, .Propose⟩ none (some 0) ⟨[]⟩)) =
      .ok (.StepState ⟨0, 0, .Propose⟩ none none ⟨[]⟩) from rfl] at hcontra
  simp at hcontra

/-- **C4.** Decoding a `TendermintMessage` envelope returns an error (it
never panics — the decoder is a total function into `Except`): a list
length differing from the fixed arity of its tag (2 for 0x01, 4 for 0x02,
5 for 0x03, 3 for 0x04 and 0x05) yields `RlpIncorrectListLen`; a tag
outside 0x01..0x05 yields `Custom("Unknown message id detected")`; a
failed snappy decompression of a ProposalBlock body yields
`Custom("Invalid compression format")`. -/
theorem tendermintMessage_decode_errors :
    (∀ (snappyDecompress : List Nat → Option (List Nat))
       (x : RlpItem) (rest : List RlpItem) (t arity : Nat),
       decU8 x = .ok t →
       ((t = 1 ∧ arity = 2) ∨ (t = 2 ∧ arity = 4) ∨ (t = 3 ∧ arity = 5) ∨
         (t = 4 ∧ arity = 3) ∨ (t = 5 ∧ arity = 3)) →
       (x :: rest).length ≠ arity →
       TendermintMessage.decode snappyDecompress (.list (x :: rest)) =
         .error (.RlpIncorrectListLen (x :: rest).length arity)) ∧
    (∀ (snappyDecompress : List Nat → Option (List Nat))
       (x : RlpItem) (rest : List RlpItem) (t : Nat),
       decU8 x = .ok t → (t = 0 ∨ 6 ≤ t) →
       TendermintMessage.decode snappyDecompress (.list (x :: rest)) =
         .error (.Custom ("Unknown message id detected"))) ∧
    (∀ (snappyDecompress : List Nat → Option (List Nat))
       (x sigItem viewItem : RlpItem) (bs : List Nat),
       decU8 x = .ok 2 → snappyDecompress bs = none →
       TendermintMessage.decode snappyDecompress
         (.list [x, sigItem, viewItem, .str bs]) =
         .error (.Custom ("Invalid compression format"))) := by
  refine ⟨?_, ?_, ?_⟩
  · intro snappyDecompress x rest t arity hdec htag hlen
    rcases htag with ⟨rfl, rfl⟩ | ⟨rfl, rfl⟩ | ⟨rfl, rfl⟩ | ⟨rfl, rfl⟩ | ⟨rfl, rfl⟩ <;>
      · simp only [TendermintMessage.decode, atIdx_cons_zero, exceptBind_ok, hdec]
        simp only [Nat.reduceEqDiff, reduceIte]
        simp only [itemCount_list, exceptBind_ok]
        rw [if_pos hlen]
        rfl
  · intro snappyDecompress x rest t hdec ht
    simp only [TendermintMessage.decode, atIdx_cons_zero, exceptBind_ok, hdec]
    rw [if_neg (show ¬ t = 1 by omega), if_neg (show ¬ t = 2 by omega),
      if_neg (show ¬ t = 3 by omega), if_neg (show ¬ t = 4 by omega),
      if_neg (show ¬ t = 5 by omega)]
    rfl
  · intro snappyDecompress x sigItem viewItem bs hdec hdecomp
    simp only [TendermintMessage.decode, atIdx_cons_zero, exceptBind_ok, hdec]
    simp only [Nat.reduceEqDiff, reduceIte]
    simp only [itemCount_list, List.length_cons, List.length_nil, exceptBind_ok]
    simp only [ne_eq, Nat.reduceAdd, Nat.reduceEqDiff, not_true, reduceIte]
    simp only [atIdx_one, atIdx_two, atIdx_three, exceptBind_ok, decBytes, hdecomp]
    rfl

/-- Witness for C4: the three error behaviours evaluated on concrete
envelopes — a tag-0x01 list of length 1, an unknown tag 0x09, and a
ProposalBlock whose body the decompressor rejects. -/
theorem tendermintMessage_decode_errors_witness :
    TendermintMessage.decode (fun _ => none) (.list [encUInt 1]) =
      .error (.RlpIncorrectListLen 1 2) ∧
    TendermintMessage.decode (fun _ => none) (.list [encUInt 9]) =
      .error (.Custom ("Unknown message id detected")) ∧
    TendermintMessage.decode (fun _ => none)
      (.list [encUInt 2, encFixed 64 0, encUInt 0, .str [7]]) =
      .error (.Custom ("Invalid compression format")) :=
  ⟨by
    have h := tendermintMessage_decode_errors.1 (fun _ => none) (encUInt 1) [] 1 2
      rfl (Or.inl ⟨rfl, rfl⟩) (by simp)
    simpa using h,
  tendermintMessage_decode_errors.2.1 (fun _ => none) (encUInt 9) [] 9
    rfl (Or.inr (by norm_num)),
  tendermintMessage_decode_errors.2.2 (fun _ => none) (encUInt 2) (encFixed 64 0)
    (encUInt 0) [7] rfl rfl⟩

/-! ## `VoteOn`, `ConsensusMessage` and signature verification (`message.rs`) -/

/-- `struct VoteOn { step, block_hash }` (`message.rs` lines 262-265). -/
structure VoteOn where
  step : VoteStep
  block_hash : Option Nat
deriving DecidableEq, Repr

/-- Derived `RlpEncodable for VoteOn`: the list of its two fields
(`rlp_bytes()` serialises exactly this tree). -/
def VoteOn.rlp_append (v : VoteOn) : RlpItem :=
  .list [v.step.rlp_append, encOption (encFixed 32) v.block_hash]

/-- `struct ConsensusMessage { on, signature, signer_index }`
(`message.rs` lines 268-273).  The source's field `on` is a reserved
token in Lean, so it is named `voteOn` here. -/
structure ConsensusMessage where
  voteOn : VoteOn
  signature : Nat
  signer_index : Nat
deriving DecidableEq, Repr

/-- `message_info_rlp` (`message.rs` lines 332-338): the canonical RLP
encoding of the `VoteOn` value built from the pair. -/
def message_info_rlp (step : VoteStep) (block_hash : Option Nat) : RlpItem :=
  VoteOn.rlp_append ⟨step, block_hash⟩

/-- `ConsensusMessage::verify` (`message.rs` lines 326-329).  `blake256`
and `verify_schnorr` live in the repository's `ccrypto` / `key` crates
outside `src/`; they are taken as parameters (`blake256` stands for
BLAKE-256 composed with the byte serialisation of the item tree). -/
def ConsensusMessage.verify
    (verify_schnorr : Nat → Nat → Nat → Bool) (blake256 : RlpItem → Nat)
    (m : ConsensusMessage) (signer_public : Nat) : Bool :=
  verify_schnorr signer_public m.signature
    (blake256 (message_info_rlp m.voteOn.step m.voteOn.block_hash))

/-- **C3.** `ConsensusMessage::verify` returns exactly the result of
Schnorr-verifying `m.signature` with the given public key over the
BLAKE-256 hash of the canonical RLP encoding of the `VoteOn` pair
`(m.on.step, m.on.block_hash)`; in particular it reads no field of `m`
other than `m.on` and `m.signature` (so not `signer_index`). -/
theorem consensusMessage_verify_spec :
    (∀ (verify_schnorr : Nat → Nat → Nat → Bool) (blake256 : RlpItem → Nat)
       (m : ConsensusMessage) (pk : Nat),
       ConsensusMessage.verify verify_schnorr blake256 m pk =
         verify_schnorr pk m.signature
           (blake256 (VoteOn.rlp_append ⟨m.voteOn.step, m.voteOn.block_hash⟩))) ∧
    (∀ (verify_schnorr : Nat → Nat → Nat → Bool) (blake256 : RlpItem → Nat)
       (m m' : ConsensusMessage) (pk : Nat),
       m.voteOn = m'.voteOn → m.signature = m'.signature →
       ConsensusMessage.verify verify_schnorr blake256 m pk =
         ConsensusMessage.verify verify_schnorr blake256 m' pk) := by
  refine ⟨fun _ _ _ _ => rfl, ?_⟩
  intro verify_schnorr blake256 m m' pk hon hsig
  unfold ConsensusMessage.verify
  rw [hon, hsig]

/-- Witness for C3: two messages equal except for `signer_index` verify
identically under concrete verifier and hash functions. -/
theorem consensusMessage_verify_spec_witness :
    ConsensusMessage.verify (fun pk sig h => pk + sig + h = 9) (fun _ => 3)
      ⟨⟨⟨1, 2, .Prevote⟩, some 3⟩, 4, 5⟩ 2 =
    ConsensusMessage.verify (fun pk sig h => pk + sig + h = 9) (fun _ => 3)
      ⟨⟨⟨1, 2, .Prevote⟩, some 3⟩, 4, 777⟩ 2 :=
  consensusMessage_verify_spec.2 (fun pk sig h => pk + sig + h = 9) (fun _ => 3)
    ⟨⟨⟨1, 2, .Prevote⟩, some 3⟩, 4, 5⟩ ⟨⟨⟨1, 2, .Prevote⟩, some 3⟩, 4, 777⟩ 2
    rfl rfl

/-! ## `TendermintState` and `ProposeInner` (`types.rs`) -/

/-- Modelled from the spec: a sealed block awaiting import; the embedded
code only ever reads its header hash (`SealedBlock` lives outside
`src/`). -/
structure SealedBlock where
  headerHash : Nat
deriving DecidableEq, Repr

/-- `struct ProposeInner` (`types.rs` lines 34-38). -/
structure ProposeInner where
  wait_block_generation : Option (PriorityMessage × Nat)
  wait_imported : List (PriorityMessage × SealedBlock)
  is_timed_out : Bool
deriving DecidableEq, Repr

/-- `ProposeInner::is_propose_step_ended` (`types.rs` lines 41-43). -/
def ProposeInner.is_propose_step_ended (inner : ProposeInner) : Bool :=
  inner.wait_block_generation.isNone && inner.wait_imported.isEmpty &&
    inner.is_timed_out

/-- `enum TendermintState` (`types.rs` lines 93-107). -/
inductive TendermintState where
  | Propose (inner : ProposeInner)
  | Prevote
  | Precommit
  | Commit (view : Nat) (block_hash : Nat)
  | CommitTimedout (view : Nat) (block_hash : Nat)
deriving DecidableEq, Repr

/-- `TendermintState::new_propose_step` (`types.rs` lines 110-116). -/
def TendermintState.new_propose_step : TendermintState :=
  .Propose ⟨none, [], false⟩

/-- `TendermintState::is_propose_step_ended` (`types.rs` lines 118-124). -/
def TendermintState.is_propose_step_ended : TendermintState → Bool
  | .Propose inner => inner.is_propose_step_ended
  | _ => false

/-- `TendermintState::mark_timed_out_if_propose_step` (lines 126-130);
the inner call sets `is_timed_out` (lines 45-47). -/
def TendermintState.mark_timed_out_if_propose_step :
    TendermintState → TendermintState
  | .Propose inner => .Propose { inner with is_timed_out := true }
  | s => s

/-- `TendermintState::generation_completed` (lines 132-138); the inner
call is `Option::take` on `wait_block_generation` (lines 49-51).
Mutation is modelled by returning the new state alongside the result. -/
def TendermintState.generation_completed :
    TendermintState → Option (PriorityMessage × Nat) × TendermintState
  | .Propose inner =>
      (inner.wait_block_generation,
        .Propose { inner with wait_block_generation := none })
  | s => (none, s)

/-- `TendermintState::generation_halted` (lines 140-144); the inner call
clears `wait_block_generation` (lines 53-55). -/
def TendermintState.generation_halted : TendermintState → TendermintState
  | .Propose inner => .Propose { inner with wait_block_generation := none }
  | s => s

/-- `ProposeInner::import_completed` (lines 57-63): find the first waiting
entry whose sealed block has the target hash, remove and return it. -/
def ProposeInner.import_completed (inner : ProposeInner)
    (target_block_hash : Nat) :
    Option (PriorityMessage × SealedBlock) × ProposeInner :=
  match inner.wait_imported.findIdx?
      (fun p => p.2.headerHash == target_block_hash) with
  | none => (none, inner)
  | some position =>
      (inner.wait_imported.get? position,
        { inner with wait_imported := inner.wait_imported.eraseIdx position })

/-- `TendermintState::import_completed` (lines 146-152). -/
def TendermintState.import_completed (s : TendermintState)
    (target_block_hash : Nat) :
    Option (PriorityMessage × SealedBlock) × TendermintState :=
  match s with
  | .Propose inner =>
      let r := inner.import_completed target_block_hash
      (r.1, .Propose r.2)
  | s => (none, s)

/-- `TendermintState::wait_block_generation` (lines 154-158); the inner
call stores the pair (lines 65-67). -/
def TendermintState.wait_block_generation (s : TendermintState)
    (my_priority_message : PriorityMessage) (parent_hash : Nat) :
    TendermintState :=
  match s with
  | .Propose inner =>
      .Propose { inner with
        wait_block_generation := some (my_priority_message, parent_hash) }
  | s => s

/-- `TendermintState::wait_imported` (lines 160-164); the inner call is
`self.wait_imported.insert(0, ...)` (lines 69-71), i.e. insertion at the
head. -/
def TendermintState.wait_imported (s : TendermintState)
    (target_priority_message : PriorityMessage) (target_block : SealedBlock) :
    TendermintState :=
  match s with
  | .Propose inner =>
      .Propose { inner with
        wait_imported := (target_priority_message, target_block) ::
          inner.wait_imported }
  | s => s

/-- **C5.** `is_propose_step_ended` holds exactly on a `Propose` state with
no pending block generation, no pending imports, and an expired timeout
(so it is false on `Prevote`, `Precommit`, `Commit` and `CommitTimedout`);
and `wait_imported` inserts each newly awaited block at the head of the
sequence, keeping it newest-first. -/
theorem tendermintState_propose_step_ended_iff :
    (∀ s : TendermintState,
       s.is_propose_step_ended = true ↔
         ∃ inner : ProposeInner, s = .Propose inner ∧
           inner.wait_block_generation = none ∧ inner.wait_imported = [] ∧
           inner.is_timed_out = true) ∧
    (∀ (inner : ProposeInner) (pm : PriorityMessage) (sb : SealedBlock),
       TendermintState.wait_imported (.Propose inner) pm sb =
         .Propose { inner with wait_imported := (pm, sb) :: inner.wait_imported }) := by
  constructor
  · intro s
    cases s with
    | Propose inner =>
      simp only [TendermintState.is_propose_step_ended,
        ProposeInner.is_propose_step_ended, Bool.and_eq_true,
        Option.isNone_iff_eq_none, List.isEmpty_iff]
      constructor
      · rintro ⟨⟨hgen, himp⟩, htime⟩
        exact ⟨inner, rfl, hgen, himp, htime⟩
      · rintro ⟨inner', heq, hgen, himp, htime⟩
        cases heq
        exact ⟨⟨hgen, himp⟩, htime⟩
    | Prevote => simp [TendermintState.is_propose_step_ended]
    | Precommit => simp [TendermintState.is_propose_step_ended]
    | Commit v bh => simp [TendermintState.is_propose_step_ended]
    | CommitTimedout v bh => simp [TendermintState.is_propose_step_ended]
  · intro inner pm sb
    rfl

/-- **C9.** Every `Propose`-specific operation on `TendermintState` is a
no-op outside the `Propose` variant: on `Prevote`, `Precommit`, `Commit`
and `CommitTimedout`, the mutators return the state unchanged and the
`Option`-returning ones additionally return `None`. -/
theorem tendermintState_frame_outside_propose :
    ∀ s : TendermintState, (∀ inner, s ≠ .Propose inner) →
      s.mark_timed_out_if_propose_step = s ∧
      s.generation_halted = s ∧
      (∀ pm ph, s.wait_block_generation pm ph = s) ∧
      (∀ pm sb, s.wait_imported pm sb = s) ∧
      s.generation_completed = (none, s) ∧
      (∀ h, s.import_completed h = (none, s)) := by
  intro s hs
  cases s with
  | Propose inner => exact absurd rfl (hs inner)
  | Prevote =>
    exact ⟨rfl, rfl, fun _ _ => rfl, fun _ _ => rfl, rfl, fun _ => rfl⟩
  | Precommit =>
    exact ⟨rfl, rfl, fun _ _ => rfl, fun _ _ => rfl, rfl, fun _ => rfl⟩
  | Commit v bh =>
    exact ⟨rfl, rfl, fun _ _ => rfl, fun _ _ => rfl, rfl, fun _ => rfl⟩
  | CommitTimedout v bh =>
    exact ⟨rfl, rfl, fun _ _ => rfl, fun _ _ => rfl, rfl, fun _ => rfl⟩

/-- Witness for C9: the frame property instantiated at the `Commit` state
`(view 3, hash 7)` — `generation_halted` leaves it unchanged. -/
theorem tendermintState_frame_outside_propose_witness :
    TendermintState.generation_halted (.Commit 3 7) = .Commit 3 7 :=
  (tendermintState_frame_outside_propose (.Commit 3 7)
    (fun _ h => TendermintState.noConfusion h)).2.1

/-! ## `TendermintSealView` (`types.rs`) -/

theorem exceptBind_error (e : ε) (f : α → Except ε β) :
    ((Except.error e : Except ε α) >>= f) = .error e := rfl

theorem mapExcept_cons_ok (f : α → Except ε β) (x : α) (xs : List α)
    (ys : List β) :
    mapExcept f (x :: xs) = .ok ys ↔
      ∃ y ys', f x = .ok y ∧ mapExcept f xs = .ok ys' ∧ ys = y :: ys' := by
  cases hf : f x with
  | error e => simp [mapExcept, hf, exceptBind_error]
  | ok y =>
    cases hm : mapExcept f xs with
    | error e => simp [mapExcept, hf, hm, exceptBind_ok, exceptBind_error]
    | ok ys' =>
      simp only [mapExcept, hf, hm, exceptBind_ok]
      constructor
      · intro h
        cases h
        exact ⟨y, ys', rfl, rfl, rfl⟩
      · rintro ⟨y', ys'', hy, hys, rfl⟩
        cases hy
        cases hys
        rfl

theorem mapExcept_ok_length (f : α → Except ε β) (l : List α) (ys : List β)
    (h : mapExcept f l = .ok ys) : ys.length = l.length := by
  induction l generalizing ys with
  | nil =>
    simp only [mapExcept] at h
    cases h
    rfl
  | cons x xs ih =>
    rw [mapExcept_cons_ok] at h
    obtain ⟨y, ys', _, hys, rfl⟩ := h
    simp [ih ys' hys]

theorem mapExcept_zip_pair (f : β → Except ε γ) (idx : List α)
    (items : List β) (out : List γ) (h : mapExcept f items = .ok out) :
    mapExcept (fun p : α × β => (f p.2).map (fun y => (p.1, y)))
        (idx.zip items) = .ok (idx.zip out) := by
  induction idx generalizing items out with
  | nil => simp [mapExcept]
  | cons i is ih =>
    cases items with
    | nil =>
      simp only [mapExcept] at h
      cases h
      simp [mapExcept]
    | cons x xs =>
      rw [mapExcept_cons_ok] at h
      obtain ⟨y, ys', hy, hys, rfl⟩ := h
      show mapExcept _ ((i, x) :: is.zip xs) = .ok ((i, y) :: is.zip ys')
      rw [mapExcept_cons_ok]
      exact ⟨(i, y), is.zip ys', by simp [hy, exceptMap_ok], ih xs ys' hys, rfl⟩

/-- `TendermintSealView` (`types.rs` lines 296-354): a read-only view over
the seal slots; each `Bytes` slot is modelled as its parsed RLP item.
The source's `.get(i).expect(...)` can only fire on a seal that skipped
`verify_block_basic`; a missing slot is modelled as the empty data item
(the claims' preconditions supply all five slots).  The source's field
`seal` is a reserved token in Lean, so it is named `slots` here. -/
structure TendermintSealView where
  slots : List RlpItem

/-- `TendermintSealView::parent_block_finalized_view` (slot 0). -/
def TendermintSealView.parent_block_finalized_view (v : TendermintSealView) :
    Except DecoderError Nat :=
  decU64 (v.slots.getD 0 (.str []))

/-- `TendermintSealView::author_view` (slot 1). -/
def TendermintSealView.author_view (v : TendermintSealView) :
    Except DecoderError Nat :=
  decU64 (v.slots.getD 1 (.str []))

/-- `TendermintSealView::bitset` (slot 3). -/
def TendermintSealView.bitset (v : TendermintSealView) :
    Except DecoderError BitSet :=
  BitSet.decode (v.slots.getD 3 (.str []))

/-- `TendermintSealView::precommits` (slot 2). -/
def TendermintSealView.precommits (v : TendermintSealView) : RlpItem :=
  v.slots.getD 2 (.str [])

/-- `TendermintSealView::signatures` (`types.rs` lines 335-347): zip the
ascending true indices of the signer `BitSet` with the decoded precommit
signatures (both iterators truncate to the shorter), collecting into the
first decode error if any. -/
def TendermintSealView.signatures (v : TendermintSealView) :
    Except DecoderError (List (Nat × Nat)) := do
  let bitset ← v.bitset
  let items :=
    match v.precommits with
    | .list items => items
    | .str _ => []
  mapExcept (fun p => (decFixed 64 p.2).map (fun sig => (p.1, sig)))
    (bitset.trueIndexIter.zip items)

/-- **C6.** For a seal with slots (0: parent finalized view, 1: author
view, 2: precommit signature list, 3: signer BitSet bytes, 4: VRF seed
info), if every precommit item decodes as a Schnorr signature (to the
list `sigs`) and the BitSet count equals the number of precommit items,
then `signatures()` returns exactly the i-th ascending true index of the
BitSet paired with the i-th precommit signature, with length equal to
the BitSet count (the true indices being strictly increasing). -/
theorem sealView_signatures_spec :
    ∀ (s0 s1 s4 : RlpItem) (items : List RlpItem) (bsbytes : List Nat)
      (sigs : List Nat),
      mapExcept (decFixed 64) items = .ok sigs →
      (BitSet.mk bsbytes).count = items.length →
      TendermintSealView.signatures ⟨[s0, s1, .list items, .str bsbytes, s4]⟩ =
          .ok ((BitSet.mk bsbytes).trueIndexIter.zip sigs) ∧
        ((BitSet.mk bsbytes).trueIndexIter.zip sigs).length =
          (BitSet.mk bsbytes).count ∧
        List.Pairwise (· < ·) (BitSet.mk bsbytes).trueIndexIter ∧
        (∀ (i idx sig : Nat),
          ((BitSet.mk bsbytes).trueIndexIter.zip sigs).get? i =
              some (idx, sig) ↔
            ((BitSet.mk bsbytes).trueIndexIter.get? i = some idx ∧
              sigs.get? i = some sig)) := by
  intro s0 s1 s4 items bsbytes sigs hdec hcount
  have hlen : sigs.length = items.length := mapExcept_ok_length _ _ _ hdec
  refine ⟨?_, ?_, ?_, ?_⟩
  · unfold TendermintSealView.signatures
    simp only [show TendermintSealView.bitset
      ⟨[s0, s1, .list items, .str bsbytes, s4]⟩ =
        .ok (BitSet.mk bsbytes) from rfl, exceptBind_ok]
    exact mapExcept_zip_pair _ _ _ _ hdec
  · rw [List.length_zip]
    unfold BitSet.count at hcount ⊢
    omega
  · exact List.Pairwise.filter _ (List.pairwise_lt_range _)
  · intro i idx sig
    exact List.get?_zip_eq_some _ _ (idx, sig) i

set_option maxRecDepth 4000 in
/-- Witness for C6: a seal whose BitSet has bit 2 set and carries one
precommit signature; `signatures()` pairs index 2 with it. -/
theorem sealView_signatures_spec_witness :
    TendermintSealView.signatures
      ⟨[.str [], .str [], .list [encFixed 64 5], .str [4], .str []]⟩ =
      .ok [(2, 5)] :=
  (sealView_signatures_spec (.str []) (.str []) (.str [])
    [encFixed 64 5] [4] [5] (by decide) (by decide)).1

/-! ## The `Proposal` store operations (`types.rs`) -/

/-- `Proposal::new_imported` (`types.rs` lines 471-478): set `is_imported`
on the first entry carrying the given hash; report whether one was found.
The `&mut self` update is modelled by returning the new store. -/
def Proposal.new_imported : List ProposalInfo → Nat → Bool × List ProposalInfo
  | [], _ => (false, [])
  | info :: rest, block_hash =>
    if info.block_hash = block_hash then
      (true, { info with is_imported := true } :: rest)
    else
      let r := Proposal.new_imported rest block_hash
      (r.1, info :: r.2)

/-- `Proposal::new_highest` (`types.rs` lines 447-461): prepend a fresh
entry with `is_imported = false`. -/
def Proposal.new_highest (p : List ProposalInfo) (block_hash : Nat)
    (priority_message : PriorityMessage) (block : List Nat)
    (signature : Nat) : List ProposalInfo :=
  ⟨block_hash, priority_message, block, signature, false⟩ :: p

/-- `Proposal::block_hash` (`types.rs` lines 480-482): the head entry's
hash. -/
def Proposal.block_hash (p : List ProposalInfo) : Option Nat :=
  p.head?.map (fun info => info.block_hash)

/-- `Proposal::imported_block_hash` (`types.rs` lines 484-486): the first
entry whose `is_imported` flag is set. -/
def Proposal.imported_block_hash (p : List ProposalInfo) : Option Nat :=
  (p.find? (fun info => info.is_imported)).map (fun info => info.block_hash)

/-- **C7.** `new_imported p h` reports whether some entry has hash `h`, and
when one exists it sets the first such entry's `is_imported` flag (leaving
everything else unchanged); `imported_block_hash` returns the hash of the
first entry whose flag is set; `block_hash` returns the head entry's hash,
and is unchanged by `new_imported` (import state never affects it). -/
theorem proposal_store_spec :
    (∀ (p : List ProposalInfo) (h : Nat),
       (Proposal.new_imported p h).1 = true ↔
         ∃ info ∈ p, info.block_hash = h) ∧
    (∀ (h : Nat) (pre post : List ProposalInfo) (info : ProposalInfo),
       (∀ x ∈ pre, x.block_hash ≠ h) → info.block_hash = h →
       (Proposal.new_imported (pre ++ info :: post) h).2 =
         pre ++ { info with is_imported := true } :: post) ∧
    (∀ (p : List ProposalInfo) (bh : Nat),
       Proposal.imported_block_hash p = some bh ↔
         ∃ pre info post, p = pre ++ info :: post ∧
           (∀ x ∈ pre, x.is_imported = false) ∧ info.is_imported = true ∧
           info.block_hash = bh) ∧
    (∀ (info : ProposalInfo) (rest : List ProposalInfo),
       Proposal.block_hash (info :: rest) = some info.block_hash) ∧
    (∀ (p : List ProposalInfo) (h : Nat),
       Proposal.block_hash (Proposal.new_imported p h).2 =
         Proposal.block_hash p) := by
  refine ⟨?_, ?_, ?_, ?_, ?_⟩
  · intro p h
    induction p with
    | nil => simp [Proposal.new_imported]
    | cons x xs ih =>
      by_cases hx : x.block_hash = h
      · simp [Proposal.new_imported, hx]
      · simp only [Proposal.new_imported, hx, if_false, ih]
        simp [hx]
  · intro h pre post info hpre hinfo
    induction pre with
    | nil => simp [Proposal.new_imported, hinfo]
    | cons y pre' ih =>
      have hy : y.block_hash ≠ h := hpre y (by simp)
      have ih' := ih (fun x hx => hpre x (by simp [hx]))
      simp only [List.cons_append, Proposal.new_imported, hy, if_false]
      exact congrArg (fun l => y :: l) ih'
  · intro p bh
    induction p with
    | nil =>
      constructor
      · intro h
        simp [Proposal.imported_block_hash] at h
      · rintro ⟨pre, info, post, heq, -, -, -⟩
        exact absurd heq (by simp)
    | cons x xs ih =>
      by_cases hx : x.is_imported
      · rw [show Proposal.imported_block_hash (x :: xs) = some x.block_hash from by
          simp [Proposal.imported_block_hash, List.find?_cons_of_pos _ hx]]
        constructor
        · intro heq
          have hbh : x.block_hash = bh := by simpa using heq
          exact ⟨[], x, xs, rfl, by simp, hx, hbh⟩
        · rintro ⟨pre, info, post, heq, hprenot, himp, hbh⟩
          cases pre with
          | nil =>
            simp only [List.nil_append, List.cons.injEq] at heq
            rw [heq.1, hbh]
          | cons y pre' =>
            simp only [List.cons_append, List.cons.injEq] at heq
            have hyf : y.is_imported = false := hprenot y (by simp)
            rw [← heq.1] at hyf
            rw [hx] at hyf
            cases hyf
      · have hx' : x.is_imported = false := by simpa using hx
        have hneg : ¬ ((fun info : ProposalInfo => info.is_imported) x = true) := by
          simp [hx']
        rw [show Proposal.imported_block_hash (x :: xs) =
            Proposal.imported_block_hash xs from by
          simp [Proposal.imported_block_hash, List.find?_cons_of_neg xs hneg]]
        rw [ih]
        constructor
        · rintro ⟨pre, info, post, heq, hprenot, himp, hbh⟩
          refine ⟨x :: pre, info, post, by simp [heq], ?_, himp, hbh⟩
          rintro z hz
          rcases List.mem_cons.mp hz with rfl | hz'
          · exact hx'
          · exact hprenot z hz'
        · rintro ⟨pre, info, post, heq, hprenot, himp, hbh⟩
          cases pre with
          | nil =>
            simp only [List.nil_append, List.cons.injEq] at heq
            rw [heq.1] at hx'
            rw [himp] at hx'
            cases hx'
          | cons y pre' =>
            simp only [List.cons_append, List.cons.injEq] at heq
            exact ⟨pre', info, post, heq.2,
              fun z hz => hprenot z (by simp [hz]), himp, hbh⟩
  · intro info rest
    rfl
  · intro p h
    induction p with
    | nil => rfl
    | cons x xs ih =>
      by_cases hx : x.block_hash = h
      · simp [Proposal.new_imported, hx, Proposal.block_hash]
      · simp [Proposal.new_imported, hx, Proposal.block_hash]

/-- Witness for C7: in a two-entry store whose second entry carries hash 2,
`new_imported _ 2` flips exactly that entry's flag. -/
theorem proposal_store_spec_witness :
    (Proposal.new_imported [⟨1, ⟨0⟩, [], 0, false⟩, ⟨2, ⟨0⟩, [], 0, false⟩] 2).2 =
      [⟨1, ⟨0⟩, [], 0, false⟩, ⟨2, ⟨0⟩, [], 0, true⟩] :=
  proposal_store_spec.2.1 2 [⟨1, ⟨0⟩, [], 0, false⟩] [] ⟨2, ⟨0⟩, [], 0, false⟩
    (by decide) rfl

/-! ## The Solo engine (`solo/mod.rs`) -/

/-- A transaction as `Solo::on_close_block` reads it: its `fee`, and its
`action` (only ever passed to `CodeChainMachine::min_cost`, which is
modelled as a function parameter). -/
structure Transaction where
  fee : Nat
  action : Nat
deriving DecidableEq, Repr

/-- The slice of an `ExecutedBlock` that `Solo::on_close_block` touches:
the header's author, the transactions, and the balance state mutated
through `machine.add_balance` (`cstate`, outside `src/`, modelled as an
account → balance map). -/
structure ExecutedBlock where
  author : Nat
  transactions : List Transaction
  balances : Nat → Nat

/-- `self.machine.add_balance(block, address, amount)`. -/
def addBalance (block : ExecutedBlock) (address amount : Nat) : ExecutedBlock :=
  { block with balances := fun a =>
      if a = address then block.balances a + amount else block.balances a }

/-- Modelled from the spec: `stake::fee_distribute` splits `total_min_fee`
across the stakeholders proportionally to their stakes (integer division
by the total stake), `remaining_fee()` being what floor division left
undistributed (the `stake` module lives outside `src/`). -/
def fee_distribute (total_min_fee : Nat) (stakes : List (Nat × Nat)) :
    List (Nat × Nat) × Nat :=
  let total_stake := (stakes.map Prod.snd).sum
  let shares := stakes.map (fun s => (s.1, total_min_fee * s.2 / total_stake))
  (shares, total_min_fee - (shares.map Prod.snd).sum)

/-- `total_reward` as computed at `solo/mod.rs` lines 135-142:
`block_reward + Σ tx.fee` (the source binds `Σ tx.fee` to a local called
`total_min_fee` inside the block before adding it to the block reward). -/
def Solo.total_reward (block_reward : Nat) (txs : List Transaction) : Nat :=
  block_reward + (txs.map (fun tx => tx.fee)).sum

/-- `total_min_fee`: `Σ CodeChainMachine::min_cost(params, tx.action)`
(`solo/mod.rs` lines 139-141, the local `min_fee`). -/
def Solo.total_min_fee (min_cost : Nat → Nat) (txs : List Transaction) : Nat :=
  (txs.map (fun tx => min_cost tx.action)).sum

/-- The one failure mode of the modelled `on_close_block`: the Rust
`assert!(total_reward >= total_min_fee)` panic. -/
inductive SoloError where
  | assertionFailed
deriving DecidableEq, Repr

/-- `Solo::on_close_block` (`solo/mod.rs` lines 127-177).  `min_cost`
stands for `CodeChainMachine::min_cost` at the parent common-params,
`stakes` for `stake::get_stakes`, `block_reward` for
`self.params.block_reward` (the engine's `block_reward` ignores the block
number).  The Rust `assert!` (a panic) is modelled as the explicit error
`.assertionFailed`.  The term-boundary accounting taken when
`term_seconds ≠ 0` (intermediate-reward rotation, implemented by the
`stake` module outside `src/`) is abstracted as the `termPath`
continuation, which receives the post-distribution block and the author
reward. -/
def Solo.on_close_block (min_cost : Nat → Nat) (block_reward : Nat)
    (stakes : List (Nat × Nat)) (term_seconds : Nat)
    (termPath : ExecutedBlock → Nat → Except SoloError ExecutedBlock)
    (block : ExecutedBlock) : Except SoloError ExecutedBlock :=
  let author := block.author
  let total_reward := Solo.total_reward block_reward block.transactions
  let total_min_fee := Solo.total_min_fee min_cost block.transactions
  if total_reward < total_min_fee then .error .assertionFailed
  else
    let distributor := fee_distribute total_min_fee stakes
    let block :=
      distributor.1.foldl (fun b share => addBalance b share.1 share.2) block
    let block_author_reward := total_reward - total_min_fee + distributor.2
    if term_seconds = 0 then
      .ok (addBalance block author block_author_reward)
    else
      termPath block block_author_reward

/-- The total amount a distribution list pays to account `a`. -/
def sharesTo (shares : List (Nat × Nat)) (a : Nat) : Nat :=
  (shares.map (fun s => if s.1 = a then s.2 else 0)).sum

theorem addBalance_balances (b : ExecutedBlock) (address amount a : Nat) :
    (addBalance b address amount).balances a =
      b.balances a + (if a = address then amount else 0) := by
  unfold addBalance
  by_cases h : a = address <;> simp [h]

theorem foldl_addBalance_balances (shares : List (Nat × Nat))
    (b : ExecutedBlock) (a : Nat) :
    (shares.foldl (fun b share => addBalance b share.1 share.2) b).balances a =
      b.balances a + sharesTo shares a := by
  induction shares generalizing b with
  | nil => simp [sharesTo]
  | cons s ss ih =>
    simp only [List.foldl_cons, ih, addBalance_balances, sharesTo, List.map_cons,
      List.sum_cons]
    by_cases h : a = s.1
    · simp [h]
      omega
    · have h' : ¬ s.1 = a := fun hc => h hc.symm
      simp [h, h']

theorem foldl_addBalance_author (shares : List (Nat × Nat))
    (b : ExecutedBlock) :
    (shares.foldl (fun b share => addBalance b share.1 share.2) b).author =
      b.author := by
  induction shares generalizing b with
  | nil => rfl
  | cons s ss ih =>
    rw [List.foldl_cons, ih]
    rfl

/-- **C8.** With `term_seconds = 0`, `Solo::on_close_block` returns `Ok`
(given that every fee covers its minimum cost), pays each stakeholder its
`fee_distribute` share of the summed minimum costs, and adds to the block
author exactly `block_reward + Σ fees - Σ minimum costs + remainder of
the distribution`. -/
theorem solo_on_close_block_term0 :
    ∀ (min_cost : Nat → Nat) (block_reward : Nat) (stakes : List (Nat × Nat))
      (termPath : ExecutedBlock → Nat → Except SoloError ExecutedBlock)
      (block : ExecutedBlock),
      (∀ tx ∈ block.transactions, min_cost tx.action ≤ tx.fee) →
      ∃ b' : ExecutedBlock,
        Solo.on_close_block min_cost block_reward stakes 0 termPath block =
            .ok b' ∧
          ∀ a : Nat, b'.balances a =
            block.balances a +
              sharesTo
                (fee_distribute (Solo.total_min_fee min_cost block.transactions)
                  stakes).1 a +
              (if a = block.author then
                Solo.total_reward block_reward block.transactions -
                  Solo.total_min_fee min_cost block.transactions +
                  (fee_distribute
                    (Solo.total_min_fee min_cost block.transactions) stakes).2
              else 0) := by
  intro min_cost block_reward stakes termPath block hfee
  have hle : Solo.total_min_fee min_cost block.transactions ≤
      Solo.total_reward block_reward block.transactions := by
    unfold Solo.total_min_fee Solo.total_reward
    have h : (block.transactions.map (fun tx => min_cost tx.action)).sum ≤
        (block.transactions.map (fun tx => tx.fee)).sum :=
      List.sum_le_sum (fun tx htx => hfee tx htx)
    omega
  unfold Solo.on_close_block
  rw [if_neg (by omega), if_pos rfl]
  refine ⟨_, rfl, ?_⟩
  intro a
  rw [addBalance_balances, foldl_addBalance_balances]

/-- Witness for C8: one transaction with fee 3 and minimum cost 1, block
reward 10, a single stakeholder holding all the stake.  The stakeholder
receives the whole minimum fee 1, the author `10 + 3 - 1 + 0 = 12`. -/
theorem solo_on_close_block_term0_witness :
    ∃ b' : ExecutedBlock,
      Solo.on_close_block (fun _ => 1) 10 [(7, 1)] 0 (fun b _ => .ok b)
          ⟨5, [⟨3, 0⟩], fun _ => 0⟩ = .ok b' ∧
        b'.balances 5 = 12 ∧ b'.balances 7 = 1 := by
  obtain ⟨b', hok, hbal⟩ := solo_on_close_block_term0 (fun _ => 1) 10 [(7, 1)]
    (fun b _ => .ok b) ⟨5, [⟨3, 0⟩], fun _ => 0⟩
    (by
      intro tx htx
      rcases List.mem_singleton.mp htx with rfl
      decide)
  refine ⟨b', hok, ?_, ?_⟩
  · rw [hbal 5]
    norm_num [sharesTo, fee_distribute, Solo.total_reward, Solo.total_min_fee]
  · rw [hbal 7]
    norm_num [sharesTo, fee_distribute, Solo.total_reward, Solo.total_min_fee]

/-- **C10.** Under the precondition that every transaction's fee is at
least its minimum cost, the `assert!(total_reward >= total_min_fee)` in
`Solo::on_close_block` never fails, the author reward's subtraction
`total_reward - total_min_fee` does not underflow (the difference added
back to `total_min_fee` restores `total_reward` exactly), and
`on_close_block` never returns the assertion failure (given the
term-boundary continuation itself never does). -/
theorem solo_assertion_safe :
    ∀ (min_cost : Nat → Nat) (block_reward : Nat) (txs : List Transaction),
      (∀ tx ∈ txs, min_cost tx.action ≤ tx.fee) →
      Solo.total_min_fee min_cost txs ≤ Solo.total_reward block_reward txs ∧
      (Solo.total_reward block_reward txs - Solo.total_min_fee min_cost txs) +
          Solo.total_min_fee min_cost txs =
        Solo.total_reward block_reward txs ∧
      (∀ (stakes : List (Nat × Nat)) (term_seconds : Nat)
         (termPath : ExecutedBlock → Nat → Except SoloError ExecutedBlock)
         (block : ExecutedBlock),
         block.transactions = txs →
         (∀ b r, termPath b r ≠ .error .assertionFailed) →
         Solo.on_close_block min_cost block_reward stakes term_seconds termPath
             block ≠ .error .assertionFailed) := by
  intro min_cost block_reward txs hfee
  have hle : Solo.total_min_fee min_cost txs ≤
      Solo.total_reward block_reward txs := by
    unfold Solo.total_min_fee Solo.total_reward
    have h : (txs.map (fun tx => min_cost tx.action)).sum ≤
        (txs.map (fun tx => tx.fee)).sum :=
      List.sum_le_sum (fun tx htx => hfee tx htx)
    omega
  refine ⟨hle, by omega, ?_⟩
  intro stakes term_seconds termPath block htxs hterm
  unfold Solo.on_close_block
  rw [htxs, if_neg (by omega)]
  by_cases hts : term_seconds = 0
  · rw [if_pos hts]
    intro hcontra
    cases hcontra
  · rw [if_neg hts]
    exact hterm _ _

/-- Witness for C10: the concrete block of the C8 witness — the assertion
bound `1 ≤ 13` holds, the subtraction restores 13, and `on_close_block`
does not fail. -/
theorem solo_assertion_safe_witness :
    Solo.total_min_fee (fun _ => 1) [⟨3, 0⟩] ≤
        Solo.total_reward 10 [⟨3, 0⟩] ∧
      Solo.on_close_block (fun _ => 1) 10 [(7, 1)] 0 (fun b _ => .ok b)
          ⟨5, [⟨3, 0⟩], fun _ => 0⟩ ≠ .error .assertionFailed := by
  have h := solo_assertion_safe (fun _ => 1) 10 [⟨3, 0⟩]
    (by
      intro tx htx
      rcases List.mem_singleton.mp htx with rfl
      decide)
  exact ⟨h.1, h.2.2 [(7, 1)] 0 (fun b _ => .ok b) ⟨5, [⟨3, 0⟩], fun _ => 0⟩ rfl
    (fun _ _ hc => Except.noConfusion hc)⟩

end CodeChain
